import Mathlib

/-!
Verification development for the `backr` backup tool (`src/main.rs`).

The embedding models:
* `walk` (main.rs lines 301-366): the recursive tree walk that builds the
  job queue and collects read errors.  The filesystem is modelled as a
  mutual inductive tree in which directory listings and individual entries
  can fail, mirroring the `fs::read_dir` / `DirEntry` error cases.
* `backup` (main.rs lines 137-245): the worker pool. Workers share a queue
  (a `Mutex<IntoIter>` in the source), a shared error vector and a shared
  completed counter.  Concurrency is modelled by an explicit scheduler: a
  list of worker ids; each scheduled id performs one iteration of the
  worker's `'main: loop`.  A `DirBuilder::create(..).unwrap()` failure
  panics the thread, modelled by the whole run returning `none`.
* the progress-bar loop (main.rs lines 216-234), modelled by the exact
  integer value of the `percent` computation at the points the claims use.
-/

namespace Backr

/-- A job is a `(source, destination)` pair of paths (`(PathBuf, PathBuf)`). -/
abbrev Job := String × String

/-! ## Filesystem model for `walk` -/

mutual
/-- A node of the source filesystem: a regular file with a modification
time, a directory with a listing, or something that is neither a file nor
a directory (`is_file()` and `is_dir()` both false, silently skipped). -/
inductive FSNode where
  | file (mtime : Nat)
  | dir (listing : DirListing)
  | other

/-- The result of `fs::read_dir` on a directory: an error (with the
rendered error message) or a list of entries. -/
inductive DirListing where
  | err (msg : String)
  | ok (entries : EntryList)

/-- A list of directory entries. -/
inductive EntryList where
  | nil
  | cons (e : FSEntry) (rest : EntryList)

/-- One `DirEntry` yielded by the `read_dir` iterator: either an `Err`
(the entry's path could not be obtained) or a named child node. -/
inductive FSEntry where
  | readErr (msg : String)
  | entry (name : String) (node : FSNode)
end

/-- The error string pushed by `walk` when `fs::read_dir` fails:
`format!("Failed to read {:?}.\n{}", &source, &error)`. -/
def enumError (source msg : String) : String :=
  "Failed to read " ++ source ++ ".\n" ++ msg

mutual
/-- `walk` (main.rs lines 301-366).  `f` is `regex.is_match`, `u` the
`update` flag, `dm` gives the modification time of an existing destination
path (`None` when `tmp_dest.exists()` is false).  The accumulators `queue`
and `errors` are the `mut` parameters of the Rust function; the listing is
what `fs::read_dir(&source)` yields. -/
def walk (f : String → Bool) (u : Bool) (dm : String → Option Nat)
    (queue : List Job) (errors : List String) (source dest : String) :
    DirListing → List Job × List String
  | .err m => (queue, errors ++ [enumError source m])
  | .ok es => walkEntries f u dm queue errors source dest es

/-- The `for path in iter` loop body of `walk` (main.rs lines 318-364). -/
def walkEntries (f : String → Bool) (u : Bool) (dm : String → Option Nat)
    (queue : List Job) (errors : List String) (source dest : String) :
    EntryList → List Job × List String
  | .nil => (queue, errors)
  | .cons (.readErr _) rest =>
      -- `Err(err) => { println!(...); continue; }` : printed, not recorded
      walkEntries f u dm queue errors source dest rest
  | .cons (.entry name node) rest =>
      let src := source ++ "/" ++ name
      if f src then
        let tmpDest := dest ++ "/" ++ name
        match node with
        | .file mtime =>
          match u with
          | true =>
            match dm tmpDest with
            | some dmt =>
              if mtime < dmt then
                walkEntries f u dm queue errors source dest rest
              else
                walkEntries f u dm (queue ++ [(src, tmpDest)]) errors source dest rest
            | none =>
                walkEntries f u dm (queue ++ [(src, tmpDest)]) errors source dest rest
          | false =>
              walkEntries f u dm (queue ++ [(src, tmpDest)]) errors source dest rest
        | .dir d =>
            let res := walk f u dm [] [] src tmpDest d
            walkEntries f u dm (queue ++ res.1) (errors ++ res.2) source dest rest
        | .other =>
            walkEntries f u dm queue errors source dest rest
      else
        walkEntries f u dm queue errors source dest rest
end

/-! ## Worker-pool model for `backup` -/

/-- The copy-error string a worker pushes on `fs::copy` failure:
`format!("Error: Failed to copy {:?} -> {:?} \n {}", src, dest, error)`. -/
def mkCopyError (j : Job) (m : String) : String :=
  "Error: Failed to copy " ++ j.1 ++ " -> " ++ j.2 ++ " \n " ++ m

/-- One worker thread's state: its `local_errors` vector (kept as
`(job, cause)` records, rendered by `mkCopyError`), the jobs it has taken
from the shared queue (ghost accounting), and whether its loop has broken
out (and flushed `local_errors` into the shared vector). -/
structure Worker where
  locals : List (Job × String)
  taken : List Job
  done : Bool
deriving DecidableEq, Repr

/-- The shared state of `backup`: the remainder of the queue iterator, the
worker threads, the shared completed counter and the shared error vector. -/
structure PoolState where
  remaining : List Job
  workers : List Worker
  completed : Nat
  errors : List (Job × String)
deriving DecidableEq, Repr

/-- `for _ in 0..threads` spawns `threads` workers when positive, none
otherwise (`threads` is an `i32`). -/
def numWorkers (threads : Int) : Nat := threads.toNat

/-- The state right after spawning: full queue, `threads` idle workers,
`completed = 0`, empty shared error vector. -/
def initState (jobs : List Job) (w : Nat) : PoolState :=
  ⟨jobs, List.replicate w ⟨[], [], false⟩, 0, []⟩

/-- One iteration of a worker's `'main: loop` (main.rs lines 170-209),
performed by worker `t`.  `mf j = true` means the job's destination parent
directory is missing and `DirBuilder::create` fails — the `.unwrap()`
panics the thread, modelled as `none`.  `cf j = some m` means `fs::copy`
fails with cause `m`.  When the queue yields `None` the worker breaks and
extends the shared error vector with its local errors. -/
def step (mf : Job → Bool) (cf : Job → Option String)
    (s : PoolState) (t : Nat) : Option PoolState :=
  match s.workers[t]? with
  | none => some s
  | some wk =>
    if wk.done then some s
    else
      match s.remaining with
      | [] =>
          some { s with
            workers := s.workers.set t { wk with done := true, locals := [] },
            errors := s.errors ++ wk.locals }
      | j :: rest =>
          if mf j then none
          else
            let wk' :=
              match cf j with
              | none => { wk with taken := wk.taken ++ [j] }
              | some m => { wk with taken := wk.taken ++ [j],
                                    locals := wk.locals ++ [(j, m)] }
            some { s with
              remaining := rest,
              workers := s.workers.set t wk',
              completed := s.completed + 1 }

/-- Run the pool under an explicit schedule of worker ids; `none` means
some scheduled step panicked. -/
def runPool (mf : Job → Bool) (cf : Job → Option String)
    (s : PoolState) : List Nat → Option PoolState
  | [] => some s
  | t :: ts =>
    match step mf cf s t with
    | none => none
    | some s' => runPool mf cf s' ts

/-- `backup`'s pool phase from the freshly spawned state. -/
def backupRun (mf : Job → Bool) (cf : Job → Option String)
    (jobs : List Job) (w : Nat) (sched : List Nat) : Option PoolState :=
  runPool mf cf (initState jobs w) sched

/-- All workers have broken out of their loops (`join` succeeds at once). -/
def allDone (s : PoolState) : Bool := s.workers.all (·.done)

/-- The jobs taken from the shared queue, per worker, concatenated. -/
def takenOf (ws : List Worker) : List Job := (ws.map Worker.taken).flatten

/-- The not-yet-flushed local error records of a worker list, concatenated. -/
def localsOf (ws : List Worker) : List (Job × String) :=
  (ws.map Worker.locals).flatten

/-- The jobs taken from the shared queue in a pool state. -/
def allTaken (s : PoolState) : List Job := takenOf s.workers

/-- The not-yet-flushed local error records in a pool state. -/
def joinLocals (s : PoolState) : List (Job × String) := localsOf s.workers

/-- The error strings `backup` returns (the shared vector, rendered). -/
def backupErrors (s : PoolState) : List String :=
  s.errors.map (fun r => mkCopyError r.1 r.2)

/-! ## Progress-bar model -/

/-- The bar loop's `percent` (main.rs line 225):
`((completed as f32 / total as f32) * 100.0) as i32`.  For `total = 0`
the division is `0.0 / 0.0 = NaN`, and the saturating float-to-int cast
sends `NaN` to `0`.  For `total > 0` we use the exact rational value
truncated; the claims only rely on the two exact cases `total = 0` and
`completed = total` (where `f32` yields exactly `100.0`). -/
def barPercent (completed total : Nat) : Int :=
  if total = 0 then 0 else Int.ofNat (completed * 100 / total)

/-- The bar loop exits only if some observable completed value (always at
most `total`) makes `percent >= 100`. -/
def barLoopExits (total : Nat) : Prop :=
  ∃ c, c ≤ total ∧ 100 ≤ barPercent c total

/-- `backup` returns only after the bar loop (when `progress` is enabled)
has exited and all workers are joined.  The polled completed value is
non-decreasing over the run and eventually equals the final state's count,
and `barPercent` is monotone in it, so the bar loop exits iff the final
count's percent reaches 100. -/
def backupReturns (progress : Bool) (total finalCompleted : Nat) : Prop :=
  progress = false ∨ 100 ≤ barPercent finalCompleted total

/-! ## Step equation lemmas -/

theorem step_no_worker {mf cf} {s : PoolState} {t : Nat}
    (h : s.workers[t]? = none) : step mf cf s t = some s := by
  simp [step, h]

theorem step_done_worker {mf cf} {s : PoolState} {t : Nat} {wk : Worker}
    (h : s.workers[t]? = some wk) (hd : wk.done = true) :
    step mf cf s t = some s := by
  simp [step, h, hd]

theorem step_flush {mf cf} {s : PoolState} {t : Nat} {wk : Worker}
    (h : s.workers[t]? = some wk) (hd : wk.done = false)
    (hr : s.remaining = []) :
    step mf cf s t = some { s with
      workers := s.workers.set t { wk with done := true, locals := [] },
      errors := s.errors ++ wk.locals } := by
  simp [step, h, hd, hr]

theorem step_take_panic {mf cf} {s : PoolState} {t : Nat} {wk : Worker}
    {j : Job} {rest : List Job}
    (h : s.workers[t]? = some wk) (hd : wk.done = false)
    (hr : s.remaining = j :: rest) (hm : mf j = true) :
    step mf cf s t = none := by
  simp [step, h, hd, hr, hm]

theorem step_take_ok {mf cf} {s : PoolState} {t : Nat} {wk : Worker}
    {j : Job} {rest : List Job}
    (h : s.workers[t]? = some wk) (hd : wk.done = false)
    (hr : s.remaining = j :: rest) (hm : mf j = false) (hc : cf j = none) :
    step mf cf s t = some { s with
      remaining := rest,
      workers := s.workers.set t { wk with taken := wk.taken ++ [j] },
      completed := s.completed + 1 } := by
  simp [step, h, hd, hr, hm, hc]

theorem step_take_copyfail {mf cf} {s : PoolState} {t : Nat} {wk : Worker}
    {j : Job} {rest : List Job} {m : String}
    (h : s.workers[t]? = some wk) (hd : wk.done = false)
    (hr : s.remaining = j :: rest) (hm : mf j = false) (hc : cf j = some m) :
    step mf cf s t = some { s with
      remaining := rest,
      workers := s.workers.set t { wk with taken := wk.taken ++ [j],
                                           locals := wk.locals ++ [(j, m)] },
      completed := s.completed + 1 } := by
  simp [step, h, hd, hr, hm, hc]

/-! ## Accounting helpers -/

theorem flatten_map_set {α β : Type _} (g : α → List β) :
    ∀ (l : List α) (t : Nat) {b : α}, l[t]? = some b → ∀ x : α,
      ((((l.set t x).map g).flatten : List β) : Multiset β) + (g b : Multiset β)
        = (((l.map g).flatten : List β) : Multiset β) + (g x : Multiset β) := by
  intro l
  induction l with
  | nil => intro t b h; simp at h
  | cons a l ih =>
    intro t b h x
    cases t with
    | zero =>
      rw [List.getElem?_cons_zero, Option.some.injEq] at h
      subst h
      simp only [List.set_cons_zero, List.map_cons, List.flatten_cons]
      rw [← Multiset.coe_add, ← Multiset.coe_add]
      abel
    | succ n =>
      rw [List.getElem?_cons_succ] at h
      simp only [List.set_cons_succ, List.map_cons, List.flatten_cons]
      rw [← Multiset.coe_add, ← Multiset.coe_add, add_assoc, add_assoc, ih n h x]

/-- The record a failed copy of job `j` leaves behind. -/
def copyRec (cf : Job → Option String) (j : Job) : Option (Job × String) :=
  (cf j).map (fun m => (j, m))

/-- The run invariant of the worker pool, relating any reachable state to
the input job list. -/
structure PoolInv (mf : Job → Bool) (cf : Job → Option String)
    (jobs : List Job) (w : Nat) (s : PoolState) : Prop where
  acc : (s.remaining : Multiset Job) + (allTaken s : Multiset Job)
          = (jobs : Multiset Job)
  comp : s.completed = (allTaken s).length
  errs : (s.errors : Multiset (Job × String))
           + (joinLocals s : Multiset (Job × String))
          = ((allTaken s).filterMap (copyRec cf) : Multiset (Job × String))
  doneEmpty : ∀ wk ∈ s.workers, wk.done = true → s.remaining = []
  doneLocals : ∀ wk ∈ s.workers, wk.done = true → wk.locals = []
  noMkdir : ∀ j ∈ allTaken s, mf j = false
  wlen : s.workers.length = w

theorem takenOf_set_ms {ws : List Worker} {t : Nat} {wk : Worker}
    (h : ws[t]? = some wk) (x : Worker) :
    (takenOf (ws.set t x) : Multiset Job) + (wk.taken : Multiset Job)
      = (takenOf ws : Multiset Job) + (x.taken : Multiset Job) :=
  flatten_map_set Worker.taken ws t h x

theorem localsOf_set_ms {ws : List Worker} {t : Nat} {wk : Worker}
    (h : ws[t]? = some wk) (x : Worker) :
    (localsOf (ws.set t x) : Multiset (Job × String))
        + (wk.locals : Multiset (Job × String))
      = (localsOf ws : Multiset (Job × String))
        + (x.locals : Multiset (Job × String)) :=
  flatten_map_set Worker.locals ws t h x

theorem takenOf_replicate_idle (w : Nat) :
    takenOf (List.replicate w ⟨[], [], false⟩) = [] := by
  simp [takenOf, List.map_replicate]

theorem localsOf_replicate_idle (w : Nat) :
    localsOf (List.replicate w ⟨[], [], false⟩) = [] := by
  simp [localsOf, List.map_replicate]

theorem poolInv_init (mf : Job → Bool) (cf : Job → Option String)
    (jobs : List Job) (w : Nat) : PoolInv mf cf jobs w (initState jobs w) := by
  refine ⟨?_, ?_, ?_, ?_, ?_, ?_, ?_⟩
  · show (jobs : Multiset Job)
        + (takenOf (List.replicate w ⟨[], [], false⟩) : Multiset Job) = _
    rw [takenOf_replicate_idle]
    simp
  · show 0 = (takenOf (List.replicate w ⟨[], [], false⟩)).length
    rw [takenOf_replicate_idle]
    rfl
  · show (([] : List (Job × String)) : Multiset (Job × String))
        + (localsOf (List.replicate w ⟨[], [], false⟩) : Multiset (Job × String))
        = ((takenOf (List.replicate w ⟨[], [], false⟩)).filterMap (copyRec cf)
            : Multiset (Job × String))
    rw [takenOf_replicate_idle, localsOf_replicate_idle]
    rfl
  · intro wk hwk hd
    have := List.eq_of_mem_replicate hwk
    subst this
    simp at hd
  · intro wk hwk hd
    have := List.eq_of_mem_replicate hwk
    subst this
    rfl
  · show ∀ j ∈ takenOf (List.replicate w ⟨[], [], false⟩), mf j = false
    rw [takenOf_replicate_idle]
    intro j hj
    simp at hj
  · exact List.length_replicate w _

theorem poolInv_take {mf cf} {jobs : List Job} {w : Nat} {ws : List Worker}
    {cnt : Nat} {errv : List (Job × String)} {t : Nat} {wk : Worker}
    {j : Job} {rest : List Job} {nl : List (Job × String)}
    (h : PoolInv mf cf jobs w ⟨j :: rest, ws, cnt, errv⟩)
    (hwk : ws[t]? = some wk) (hd : wk.done = false) (hm : mf j = false)
    (hnl : (nl : Multiset (Job × String))
        = (wk.locals : Multiset (Job × String))
          + ((copyRec cf j).toList : Multiset (Job × String))) :
    PoolInv mf cf jobs w
      ⟨rest, ws.set t { wk with taken := wk.taken ++ [j], locals := nl },
       cnt + 1, errv⟩ := by
  have T0 : (takenOf (ws.set t { wk with taken := wk.taken ++ [j], locals := nl })
        : Multiset Job) + (wk.taken : Multiset Job)
      = (takenOf ws : Multiset Job)
        + ((wk.taken ++ [j] : List Job) : Multiset Job) :=
    takenOf_set_ms hwk _
  have T : (takenOf (ws.set t { wk with taken := wk.taken ++ [j], locals := nl })
      : Multiset Job) = (takenOf ws : Multiset Job) + ([j] : Multiset Job) := by
    apply add_right_cancel (b := (wk.taken : Multiset Job))
    rw [T0, ← Multiset.coe_add]
    abel
  have Tperm : List.Perm
      (takenOf (ws.set t { wk with taken := wk.taken ++ [j], locals := nl }))
      (takenOf ws ++ [j]) := by
    apply Multiset.coe_eq_coe.mp
    rw [T, Multiset.coe_add]
  have L0 : (localsOf (ws.set t { wk with taken := wk.taken ++ [j], locals := nl })
        : Multiset (Job × String)) + (wk.locals : Multiset (Job × String))
      = (localsOf ws : Multiset (Job × String))
        + (nl : Multiset (Job × String)) :=
    localsOf_set_ms hwk _
  have L : (localsOf (ws.set t { wk with taken := wk.taken ++ [j], locals := nl })
      : Multiset (Job × String)) = (localsOf ws : Multiset (Job × String))
        + ((copyRec cf j).toList : Multiset (Job × String)) := by
    apply add_right_cancel (b := (wk.locals : Multiset (Job × String)))
    rw [L0, hnl]
    abel
  have hsing : ([j].filterMap (copyRec cf) : List (Job × String))
      = (copyRec cf j).toList := by
    cases hcr : copyRec cf j <;> simp [List.filterMap, hcr]
  have F : (((takenOf (ws.set t
        { wk with taken := wk.taken ++ [j], locals := nl })).filterMap
        (copyRec cf)) : Multiset (Job × String))
      = (((takenOf ws).filterMap (copyRec cf)) : Multiset (Job × String))
        + ((copyRec cf j).toList : Multiset (Job × String)) := by
    rw [Multiset.coe_eq_coe.mpr (Tperm.filterMap (copyRec cf)),
      List.filterMap_append, hsing, ← Multiset.coe_add]
  have hacc : ((j :: rest : List Job) : Multiset Job)
      + (takenOf ws : Multiset Job) = (jobs : Multiset Job) := h.acc
  have hcomp : cnt = (takenOf ws).length := h.comp
  have herrs : (errv : Multiset (Job × String))
      + (localsOf ws : Multiset (Job × String))
      = ((takenOf ws).filterMap (copyRec cf) : Multiset (Job × String)) := h.errs
  refine ⟨?_, ?_, ?_, ?_, ?_, ?_, ?_⟩
  · show (rest : Multiset Job)
      + (takenOf (ws.set t { wk with taken := wk.taken ++ [j], locals := nl })
          : Multiset Job)
      = (jobs : Multiset Job)
    have hcons : ((j :: rest : List Job) : Multiset Job)
        = (([j] : List Job) : Multiset Job) + (rest : Multiset Job) :=
      (Multiset.coe_add [j] rest).symm
    rw [T, ← hacc, hcons]
    abel
  · show cnt + 1 = (takenOf (ws.set t
        { wk with taken := wk.taken ++ [j], locals := nl })).length
    rw [Tperm.length_eq]
    simp [hcomp]
  · show (errv : Multiset (Job × String))
      + (localsOf (ws.set t { wk with taken := wk.taken ++ [j], locals := nl })
          : Multiset (Job × String))
      = ((takenOf (ws.set t
            { wk with taken := wk.taken ++ [j], locals := nl })).filterMap
          (copyRec cf) : Multiset (Job × String))
    rw [L, F, ← herrs]
    abel
  · intro wk' hmem hd'
    rcases List.mem_or_eq_of_mem_set hmem with hold | heq
    · have := h.doneEmpty wk' hold hd'
      exact absurd this (by simp)
    · subst heq
      simp [hd] at hd'
  · intro wk' hmem hd'
    rcases List.mem_or_eq_of_mem_set hmem with hold | heq
    · exact h.doneLocals wk' hold hd'
    · subst heq
      simp [hd] at hd'
  · intro j' hj'
    show mf j' = false
    rcases List.mem_append.mp (Tperm.mem_iff.mp hj') with hin | hin
    · exact h.noMkdir j' hin
    · simp at hin
      subst hin
      exact hm
  · show (ws.set t _).length = w
    rw [List.length_set]
    exact h.wlen

theorem poolInv_flush {mf cf} {jobs : List Job} {w : Nat} {ws : List Worker}
    {cnt : Nat} {errv : List (Job × String)} {t : Nat} {wk : Worker}
    (h : PoolInv mf cf jobs w ⟨[], ws, cnt, errv⟩)
    (hwk : ws[t]? = some wk) :
    PoolInv mf cf jobs w
      ⟨[], ws.set t { wk with done := true, locals := [] }, cnt,
       errv ++ wk.locals⟩ := by
  have T0 : (takenOf (ws.set t { wk with done := true, locals := [] })
        : Multiset Job) + (wk.taken : Multiset Job)
      = (takenOf ws : Multiset Job) + (wk.taken : Multiset Job) :=
    takenOf_set_ms hwk _
  have T : (takenOf (ws.set t { wk with done := true, locals := [] })
      : Multiset Job) = (takenOf ws : Multiset Job) :=
    add_right_cancel T0
  have Tperm : List.Perm
      (takenOf (ws.set t { wk with done := true, locals := [] }))
      (takenOf ws) := Multiset.coe_eq_coe.mp T
  have L0 : (localsOf (ws.set t { wk with done := true, locals := [] })
        : Multiset (Job × String)) + (wk.locals : Multiset (Job × String))
      = (localsOf ws : Multiset (Job × String))
        + (([] : List (Job × String)) : Multiset (Job × String)) :=
    localsOf_set_ms hwk _
  have L : (localsOf (ws.set t { wk with done := true, locals := [] })
      : Multiset (Job × String)) + (wk.locals : Multiset (Job × String))
      = (localsOf ws : Multiset (Job × String)) := by
    rw [L0]
    simp
  have hacc : (([] : List Job) : Multiset Job)
      + (takenOf ws : Multiset Job) = (jobs : Multiset Job) := h.acc
  have hcomp : cnt = (takenOf ws).length := h.comp
  have herrs : (errv : Multiset (Job × String))
      + (localsOf ws : Multiset (Job × String))
      = ((takenOf ws).filterMap (copyRec cf) : Multiset (Job × String)) := h.errs
  refine ⟨?_, ?_, ?_, ?_, ?_, ?_, ?_⟩
  · show (([] : List Job) : Multiset Job)
      + (takenOf (ws.set t { wk with done := true, locals := [] })
          : Multiset Job)
      = (jobs : Multiset Job)
    rw [T]
    exact hacc
  · show cnt = (takenOf (ws.set t { wk with done := true, locals := [] })).length
    rw [Tperm.length_eq]
    exact hcomp
  · show ((errv ++ wk.locals : List (Job × String)) : Multiset (Job × String))
      + (localsOf (ws.set t { wk with done := true, locals := [] })
          : Multiset (Job × String))
      = ((takenOf (ws.set t { wk with done := true, locals := [] })).filterMap
          (copyRec cf) : Multiset (Job × String))
    rw [← Multiset.coe_add,
      Multiset.coe_eq_coe.mpr (Tperm.filterMap (copyRec cf)), ← herrs, ← L]
    abel
  · intro wk' hmem hd'
    rfl
  · intro wk' hmem hd'
    rcases List.mem_or_eq_of_mem_set hmem with hold | heq
    · exact h.doneLocals wk' hold hd'
    · subst heq
      rfl
  · intro j' hj'
    exact h.noMkdir j' (Tperm.mem_iff.mp hj')
  · show (ws.set t _).length = w
    rw [List.length_set]
    exact h.wlen

theorem poolInv_step {mf cf jobs w} {s s' : PoolState} {t : Nat}
    (h : PoolInv mf cf jobs w s) (hs : step mf cf s t = some s') :
    PoolInv mf cf jobs w s' := by
  obtain ⟨rem, ws, cnt, errv⟩ := s
  cases hwk : ws[t]? with
  | none =>
    rw [step_no_worker hwk, Option.some.injEq] at hs
    exact hs ▸ h
  | some wk =>
    cases hd : wk.done with
    | true =>
      rw [step_done_worker hwk hd, Option.some.injEq] at hs
      exact hs ▸ h
    | false =>
      cases hr : rem with
      | nil =>
        subst hr
        rw [step_flush hwk hd rfl, Option.some.injEq] at hs
        exact hs ▸ poolInv_flush h hwk
      | cons j rest =>
        subst hr
        cases hm : mf j with
        | true =>
          rw [step_take_panic hwk hd rfl hm] at hs
          exact absurd hs (by simp)
        | false =>
          cases hc : cf j with
          | none =>
            rw [step_take_ok hwk hd rfl hm hc, Option.some.injEq] at hs
            refine hs ▸ ?_
            have := @poolInv_take mf cf jobs w ws cnt errv t wk j rest
              wk.locals h hwk hd hm (by simp [copyRec, hc])
            simpa using this
          | some m =>
            rw [step_take_copyfail hwk hd rfl hm hc, Option.some.injEq] at hs
            refine hs ▸ ?_
            exact @poolInv_take mf cf jobs w ws cnt errv t wk j rest
              (wk.locals ++ [(j, m)]) h hwk hd hm
              (by simp [copyRec, hc, ← Multiset.coe_add])

theorem runPool_inv {mf cf jobs w} {s s' : PoolState} {sched : List Nat}
    (h : PoolInv mf cf jobs w s) (hr : runPool mf cf s sched = some s') :
    PoolInv mf cf jobs w s' := by
  induction sched generalizing s with
  | nil =>
    simp only [runPool, Option.some.injEq] at hr
    exact hr ▸ h
  | cons t ts ih =>
    simp only [runPool] at hr
    cases hstep : step mf cf s t with
    | none => rw [hstep] at hr; exact absurd hr (by simp)
    | some s1 => rw [hstep] at hr; exact ih (poolInv_step h hstep) hr

theorem backupRun_inv {mf cf} {jobs : List Job} {w : Nat} {sched : List Nat}
    {s : PoolState} (hr : backupRun mf cf jobs w sched = some s) :
    PoolInv mf cf jobs w s :=
  runPool_inv (poolInv_init mf cf jobs w) hr

theorem runPool_append (mf : Job → Bool) (cf : Job → Option String)
    (s : PoolState) (l1 l2 : List Nat) :
    runPool mf cf s (l1 ++ l2)
      = (runPool mf cf s l1).bind (fun s1 => runPool mf cf s1 l2) := by
  induction l1 generalizing s with
  | nil => simp [runPool]
  | cons t ts ih =>
    simp only [List.cons_append, runPool]
    cases step mf cf s t with
    | none => simp
    | some s1 => simp [ih]

theorem step_completed_le {mf cf} {s s' : PoolState} {t : Nat}
    (hs : step mf cf s t = some s') : s.completed ≤ s'.completed := by
  obtain ⟨rem, ws, cnt, errv⟩ := s
  cases hwk : ws[t]? with
  | none =>
    rw [step_no_worker hwk, Option.some.injEq] at hs
    exact hs ▸ le_refl _
  | some wk =>
    cases hd : wk.done with
    | true =>
      rw [step_done_worker hwk hd, Option.some.injEq] at hs
      exact hs ▸ le_refl _
    | false =>
      cases hr : rem with
      | nil =>
        subst hr
        rw [step_flush hwk hd rfl, Option.some.injEq] at hs
        exact hs ▸ le_refl _
      | cons j rest =>
        subst hr
        cases hm : mf j with
        | true =>
          rw [step_take_panic hwk hd rfl hm] at hs
          exact absurd hs (by simp)
        | false =>
          cases hc : cf j with
          | none =>
            rw [step_take_ok hwk hd rfl hm hc, Option.some.injEq] at hs
            exact hs ▸ Nat.le_succ _
          | some m =>
            rw [step_take_copyfail hwk hd rfl hm hc, Option.some.injEq] at hs
            exact hs ▸ Nat.le_succ _

theorem runPool_completed_le {mf cf} {s s' : PoolState} {sched : List Nat}
    (hr : runPool mf cf s sched = some s') : s.completed ≤ s'.completed := by
  induction sched generalizing s with
  | nil =>
    simp only [runPool, Option.some.injEq] at hr
    exact hr ▸ le_refl _
  | cons t ts ih =>
    simp only [runPool] at hr
    cases hstep : step mf cf s t with
    | none => rw [hstep] at hr; exact absurd hr (by simp)
    | some s1 =>
      rw [hstep] at hr
      exact le_trans (step_completed_le hstep) (ih hr)

theorem remaining_nil_of_allDone {mf cf jobs w} {s : PoolState}
    (h : PoolInv mf cf jobs w s) (hw : 1 ≤ w) (hd : allDone s = true) :
    s.remaining = [] := by
  have hlen : s.workers.length = w := h.wlen
  have hne : s.workers ≠ [] := by
    intro hnil
    rw [hnil] at hlen
    simp at hlen
    omega
  obtain ⟨wk, hwk⟩ := List.exists_mem_of_ne_nil s.workers hne
  have hwd := List.all_eq_true.mp hd wk hwk
  exact h.doneEmpty wk hwk (by simpa using hwd)

theorem joinLocals_nil_of_allDone {mf cf jobs w} {s : PoolState}
    (h : PoolInv mf cf jobs w s) (hd : allDone s = true) :
    joinLocals s = [] := by
  simp only [joinLocals, localsOf]
  rw [List.flatten_eq_nil_iff]
  intro l hl
  rcases List.mem_map.mp hl with ⟨wk, hwk, hlw⟩
  have hwd := List.all_eq_true.mp hd wk hwk
  rw [← hlw]
  exact h.doneLocals wk hwk (by simpa using hwd)

/-- At a completed run (all workers joined, at least one worker), every job
was taken and the shared error vector holds exactly the copy-failure
records of the input jobs. -/
theorem final_state_of_allDone {mf cf jobs w} {s : PoolState}
    (h : PoolInv mf cf jobs w s) (hw : 1 ≤ w) (hd : allDone s = true) :
    (allTaken s : Multiset Job) = (jobs : Multiset Job)
    ∧ (s.errors : Multiset (Job × String))
        = ((jobs.filterMap (copyRec cf)) : Multiset (Job × String)) := by
  have hrem := remaining_nil_of_allDone h hw hd
  have hloc := joinLocals_nil_of_allDone h hd
  have hacc := h.acc
  rw [hrem] at hacc
  have htk : (allTaken s : Multiset Job) = (jobs : Multiset Job) := by
    simpa using hacc
  refine ⟨htk, ?_⟩
  have herrs := h.errs
  rw [hloc] at herrs
  have hperm : List.Perm (allTaken s) jobs := Multiset.coe_eq_coe.mp htk
  have : (s.errors : Multiset (Job × String))
      = ((allTaken s).filterMap (copyRec cf) : Multiset (Job × String)) := by
    simpa using herrs
  rw [this]
  exact Multiset.coe_eq_coe.mpr (hperm.filterMap (copyRec cf))

/-! ## Claims -/

/-- C2: for a regular-file child of the walked directory whose path
matches the filter, the `(source, destination)` pair is always enqueued
when `update` is false; when `update` is true it is enqueued unless the
destination already exists with a strictly newer modification time — in
particular a missing destination, an older destination, and an
equal-timestamp destination all still enqueue the job. -/
theorem walk_update_mode_enqueue (f : String → Bool) (dm : String → Option Nat)
    (q : List Job) (e : List String) (s d nm : String) (mt dmt : Nat)
    (rest : EntryList) (hmatch : f (s ++ "/" ++ nm) = true) :
    (walkEntries f false dm q e s d (.cons (.entry nm (.file mt)) rest)
        = walkEntries f false dm (q ++ [(s ++ "/" ++ nm, d ++ "/" ++ nm)])
            e s d rest)
    ∧ (dm (d ++ "/" ++ nm) = some dmt → mt < dmt →
        walkEntries f true dm q e s d (.cons (.entry nm (.file mt)) rest)
          = walkEntries f true dm q e s d rest)
    ∧ (dm (d ++ "/" ++ nm) = none →
        walkEntries f true dm q e s d (.cons (.entry nm (.file mt)) rest)
          = walkEntries f true dm (q ++ [(s ++ "/" ++ nm, d ++ "/" ++ nm)])
              e s d rest)
    ∧ (dm (d ++ "/" ++ nm) = some dmt → dmt ≤ mt →
        walkEntries f true dm q e s d (.cons (.entry nm (.file mt)) rest)
          = walkEntries f true dm (q ++ [(s ++ "/" ++ nm, d ++ "/" ++ nm)])
              e s d rest) := by
  refine ⟨?_, ?_, ?_, ?_⟩
  · rw [walkEntries]
    simp [hmatch]
  · intro hdm hlt
    rw [walkEntries]
    simp [hmatch, hdm, hlt]
  · intro hdm
    rw [walkEntries]
    simp [hmatch, hdm]
  · intro hdm hge
    rw [walkEntries]
    simp [hmatch, hdm, Nat.not_lt.mpr hge]

/-- C2 witness: concrete instance with an equal-timestamp destination. -/
theorem walk_update_mode_enqueue_witness :
    (walkEntries (fun _ => true) false (fun _ => some 5) [] [] "s" "d"
        (.cons (.entry "n" (.file 5)) .nil)
      = walkEntries (fun _ => true) false (fun _ => some 5)
          ([] ++ [("s" ++ "/" ++ "n", "d" ++ "/" ++ "n")]) [] "s" "d" .nil)
    ∧ ((some 5 : Option Nat) = some 5 → 5 < 5 →
        walkEntries (fun _ => true) true (fun _ => some 5) [] [] "s" "d"
          (.cons (.entry "n" (.file 5)) .nil)
        = walkEntries (fun _ => true) true (fun _ => some 5) [] [] "s" "d" .nil)
    ∧ ((some 5 : Option Nat) = none →
        walkEntries (fun _ => true) true (fun _ => some 5) [] [] "s" "d"
          (.cons (.entry "n" (.file 5)) .nil)
        = walkEntries (fun _ => true) true (fun _ => some 5)
            ([] ++ [("s" ++ "/" ++ "n", "d" ++ "/" ++ "n")]) [] "s" "d" .nil)
    ∧ ((some 5 : Option Nat) = some 5 → 5 ≤ 5 →
        walkEntries (fun _ => true) true (fun _ => some 5) [] [] "s" "d"
          (.cons (.entry "n" (.file 5)) .nil)
        = walkEntries (fun _ => true) true (fun _ => some 5)
            ([] ++ [("s" ++ "/" ++ "n", "d" ++ "/" ++ "n")]) [] "s" "d" .nil) :=
  walk_update_mode_enqueue (fun _ => true) (fun _ => some 5) [] [] "s" "d" "n"
    5 5 .nil rfl

/-- C5 counterexample: a listing holding exactly one entry-read failure
produces an empty error list — the claim said an ErrorEntry is recorded in
the returned list, but nothing is recorded. -/
theorem walk_entry_read_error_unrecorded_cex :
    walk (fun _ => true) true (fun _ => none) [] [] "s2" "d2"
      (DirListing.ok (.cons (.readErr "eek") .nil)) = ([], []) := rfl

/-- C5 (amended): a directory entry the walk cannot use is skipped and the
walk continues without aborting, but no ErrorEntry is ever recorded in the
returned error list: a `DirEntry` error (the entry's path unobtainable) is
only printed to stdout and skipped, while a child that classifies as
neither file nor directory (for example, unreadable metadata makes both
`is_file()` and `is_dir()` return false) is skipped silently, with no
print at all — in both cases the accumulators pass through unchanged. -/
theorem walk_unusable_entry_skipped (f : String → Bool) (u : Bool)
    (dm : String → Option Nat) (q : List Job) (e : List String)
    (s d m nm : String) (rest : EntryList) :
    (walkEntries f u dm q e s d (.cons (.readErr m) rest)
      = walkEntries f u dm q e s d rest)
    ∧ (walkEntries f u dm q e s d (.cons (.entry nm .other) rest)
      = walkEntries f u dm q e s d rest) := by
  constructor
  · rw [walkEntries]
  · rw [walkEntries]
    simp

/-- C8: when listing a directory fails, `walk` appends exactly one error
naming that directory and returns the job accumulator unchanged; inside a
parent's loop a failing child subtree contributes just that one error and
the remaining siblings are processed exactly as before. -/
theorem walk_unreadable_dir_single_error (f : String → Bool) (u : Bool)
    (dm : String → Option Nat) (q : List Job) (e : List String)
    (src dst nm m : String) (rest : EntryList)
    (hmatch : f (src ++ "/" ++ nm) = true) :
    (walk f u dm q e src dst (.err m) = (q, e ++ [enumError src m]))
    ∧ (walkEntries f u dm q e src dst (.cons (.entry nm (.dir (.err m))) rest)
        = walkEntries f u dm q (e ++ [enumError (src ++ "/" ++ nm) m])
            src dst rest) := by
  constructor
  · rw [walk]
  · rw [walkEntries]
    simp [hmatch, walk]

/-- C8 witness: concrete unreadable directory and unreadable child. -/
theorem walk_unreadable_dir_single_error_witness :
    (walk (fun _ => true) false (fun _ => none) [("j1", "j2")] ["e0"] "a" "b"
        (.err "oops") = ([("j1", "j2")], ["e0"] ++ [enumError "a" "oops"]))
    ∧ (walkEntries (fun _ => true) false (fun _ => none) [("j1", "j2")] ["e0"]
        "a" "b" (.cons (.entry "c" (.dir (.err "oops"))) .nil)
        = walkEntries (fun _ => true) false (fun _ => none) [("j1", "j2")]
            (["e0"] ++ [enumError ("a" ++ "/" ++ "c") "oops"]) "a" "b" .nil) :=
  walk_unreadable_dir_single_error (fun _ => true) false (fun _ => none)
    [("j1", "j2")] ["e0"] "a" "b" "c" "oops" .nil rfl

/-- C3 counterexample: an entry-read error during the walk is not captured
in the returned error list (the walk returns no errors at all), and a
directory-creation failure during the copy phase aborts the run instead of
being captured — both contradict the claim that every operational error is
captured as an error string returned to the caller. -/
theorem error_propagation_cex :
    walk (fun _ => true) false (fun _ => none) [] [] "src" "dst"
      (DirListing.ok (.cons (.readErr "boom") .nil)) = ([], [])
    ∧ backupRun (fun _ => true) (fun _ => none) [("x", "y")] 1 [0] = none :=
  ⟨rfl, rfl⟩

/-- C3 (amended): enumeration errors are captured in walk's returned error
list and copy errors are captured in the worker's local error list while
the worker carries on; but an entry-read error is only printed and the
entry skipped, and a directory-creation failure panics the worker thread
and aborts the run. -/
theorem error_propagation_amended (f : String → Bool) (u : Bool)
    (dm : String → Option Nat) (q : List Job) (e : List String)
    (src dst m : String) (rest : EntryList)
    (mf : Job → Bool) (cf : Job → Option String) (s : PoolState) (t : Nat)
    (wk : Worker) (j : Job) (jrest : List Job)
    (hwk : s.workers[t]? = some wk) (hd : wk.done = false)
    (hrem : s.remaining = j :: jrest) :
    (walk f u dm q e src dst (.err m) = (q, e ++ [enumError src m]))
    ∧ (walkEntries f u dm q e src dst (.cons (.readErr m) rest)
        = walkEntries f u dm q e src dst rest)
    ∧ (mf j = true → step mf cf s t = none)
    ∧ (mf j = false → cf j = some m →
        step mf cf s t = some { s with
          remaining := jrest,
          workers := s.workers.set t { wk with taken := wk.taken ++ [j],
                                               locals := wk.locals ++ [(j, m)] },
          completed := s.completed + 1 }) := by
  refine ⟨?_, ?_, ?_, ?_⟩
  · rw [walk]
  · rw [walkEntries]
  · intro hm
    exact step_take_panic hwk hd hrem hm
  · intro hm hc
    exact step_take_copyfail hwk hd hrem hm hc

/-- C3 witness: concrete instance, with a live copy failure. -/
theorem error_propagation_amended_witness :
    (walk (fun _ => true) true (fun _ => none) [] [] "s" "d" (.err "m1")
        = ([], [] ++ [enumError "s" "m1"]))
    ∧ (walkEntries (fun _ => true) true (fun _ => none) [] [] "s" "d"
          (.cons (.readErr "m1") .nil)
        = walkEntries (fun _ => true) true (fun _ => none) [] [] "s" "d" .nil)
    ∧ ((fun _ => false : Job → Bool) ("x", "y") = true →
        step (fun _ => false) (fun _ => some "m1")
          ⟨[("x", "y")], [⟨[], [], false⟩], 0, []⟩ 0 = none)
    ∧ ((fun _ => false : Job → Bool) ("x", "y") = false →
        (fun _ => some "m1" : Job → Option String) ("x", "y") = some "m1" →
        step (fun _ => false) (fun _ => some "m1")
          ⟨[("x", "y")], [⟨[], [], false⟩], 0, []⟩ 0
          = some ⟨[], [⟨[], [], false⟩].set 0
              ⟨[] ++ [(("x", "y"), "m1")], [] ++ [("x", "y")], false⟩,
              0 + 1, []⟩) :=
  error_propagation_amended (fun _ => true) true (fun _ => none) [] [] "s" "d"
    "m1" .nil (fun _ => false) (fun _ => some "m1")
    ⟨[("x", "y")], [⟨[], [], false⟩], 0, []⟩ 0 ⟨[], [], false⟩ ("x", "y") []
    rfl rfl rfl

/-- C4 counterexample: one job whose destination parent directory cannot
be created makes the whole run abort (`none`): the failure is not recorded
as an error entry and no worker continues. -/
theorem mkdir_failure_aborts_cex :
    backupRun (fun _ => true) (fun _ => none) [("a", "b")] 1 [0] = none := rfl

/-- C4 (amended): a failure of `DirBuilder::create(..).unwrap()` on a
job's destination parent panics the worker thread and aborts the run, and
is never recorded: a step taking such a job yields `none`, so every job
taken in a run that returns had no directory-creation failure. -/
theorem mkdir_failure_aborts (mf : Job → Bool) (cf : Job → Option String)
    (jobs : List Job) (w : Nat) (sched : List Nat) (s : PoolState)
    (s1 : PoolState) (t : Nat) (wk : Worker) (j : Job) (rest : List Job)
    (hrun : backupRun mf cf jobs w sched = some s)
    (hwk : s1.workers[t]? = some wk) (hd : wk.done = false)
    (hrem : s1.remaining = j :: rest) (hm : mf j = true) :
    (∀ j' ∈ allTaken s, mf j' = false) ∧ step mf cf s1 t = none :=
  ⟨(backupRun_inv hrun).noMkdir, step_take_panic hwk hd hrem hm⟩

/-- C4 witness: a completed run over a creatable job, beside a concrete
aborting step on an uncreatable one. -/
theorem mkdir_failure_aborts_witness :
    (∀ j' ∈ allTaken ⟨[], [⟨[], [("a", "b")], true⟩], 1, []⟩,
        (fun j => decide (j.1 = "bad")) j' = false)
    ∧ step (fun j => decide (j.1 = "bad")) (fun _ => none)
        ⟨[("bad", "z")], [⟨[], [], false⟩], 0, []⟩ 0 = none :=
  mkdir_failure_aborts (fun j => decide (j.1 = "bad")) (fun _ => none)
    [("a", "b")] 1 [0, 0] ⟨[], [⟨[], [("a", "b")], true⟩], 1, []⟩
    ⟨[("bad", "z")], [⟨[], [], false⟩], 0, []⟩ 0 ⟨[], [], false⟩ ("bad", "z")
    [] rfl rfl rfl rfl rfl

/-- C1: for every job list and worker count `w` with `1 ≤ w ≤ n`, a
completed run (all workers joined) has delivered exactly the input jobs:
the per-worker taken lists together form the input list as a multiset (no
job taken twice, none dropped), and for duplicate-free inputs the
per-worker sets are pairwise disjoint. -/
theorem backup_processes_each_job_exactly_once
    (mf : Job → Bool) (cf : Job → Option String) (jobs : List Job) (w : Nat)
    (sched : List Nat) (s : PoolState)
    (hw1 : 1 ≤ w) (hw2 : w ≤ jobs.length)
    (hrun : backupRun mf cf jobs w sched = some s)
    (hdone : allDone s = true) :
    (allTaken s : Multiset Job) = (jobs : Multiset Job)
    ∧ (jobs.Nodup → (s.workers.map Worker.taken).Pairwise List.Disjoint) := by
  have hinv := backupRun_inv hrun
  have htk := (final_state_of_allDone hinv hw1 hdone).1
  refine ⟨htk, fun hnd => ?_⟩
  have hperm : List.Perm (allTaken s) jobs := Multiset.coe_eq_coe.mp htk
  have hnd' : (allTaken s).Nodup := (hperm.nodup_iff).mpr hnd
  have hnd2 : ((s.workers.map Worker.taken).flatten).Nodup := hnd'
  exact (List.nodup_flatten.mp hnd2).2

/-- C1 witness: two jobs, one worker, fully drained. -/
theorem backup_processes_each_job_exactly_once_witness :
    (allTaken ⟨[], [⟨[], [("a", "b"), ("c", "d")], true⟩], 2, []⟩
        : Multiset Job)
      = (([("a", "b"), ("c", "d")] : List Job) : Multiset Job)
    ∧ (([("a", "b"), ("c", "d")] : List Job).Nodup →
        (([⟨[], [("a", "b"), ("c", "d")], true⟩] : List Worker).map
            Worker.taken).Pairwise List.Disjoint) :=
  backup_processes_each_job_exactly_once (fun _ => false) (fun _ => none)
    [("a", "b"), ("c", "d")] 1 [0, 0, 0]
    ⟨[], [⟨[], [("a", "b"), ("c", "d")], true⟩], 2, []⟩
    (by decide) (by decide) rfl rfl

theorem countP_copyRec_notin (cf : Job → Option String) (j : Job) :
    ∀ l : List Job, j ∉ l →
      (l.filterMap (copyRec cf)).countP (fun r => decide (r.1 = j)) = 0 := by
  intro l
  induction l with
  | nil => intro _; rfl
  | cons a l ih =>
    intro hna
    have hal : j ∉ l := fun h => hna (List.mem_cons_of_mem a h)
    have haj : a ≠ j := fun h => hna (by rw [h]; exact List.mem_cons_self j l)
    cases hca : copyRec cf a with
    | none =>
      rw [List.filterMap_cons_none hca]
      exact ih hal
    | some r =>
      have hca' := hca
      simp only [copyRec] at hca'
      obtain ⟨m', hm', hr⟩ := Option.map_eq_some'.mp hca'
      rw [List.filterMap_cons_some hca, List.countP_cons]
      have hr1 : r.1 = a := by rw [← hr]
      simp [hr1, haj, ih hal]

theorem countP_copyRec_nodup (cf : Job → Option String) (j : Job) (m : String) :
    ∀ l : List Job, l.Nodup → j ∈ l → cf j = some m →
      (l.filterMap (copyRec cf)).countP (fun r => decide (r.1 = j)) = 1
      ∧ (j, m) ∈ l.filterMap (copyRec cf) := by
  intro l
  induction l with
  | nil => intro _ hj _; simp at hj
  | cons a l ih =>
    intro hnd hj hcf
    rcases List.mem_cons.mp hj with heq | hmem
    · subst heq
      have hnotin : j ∉ l := (List.nodup_cons.mp hnd).1
      have hcr : copyRec cf j = some (j, m) := by simp [copyRec, hcf]
      constructor
      · rw [List.filterMap_cons_some hcr, List.countP_cons]
        simp [countP_copyRec_notin cf j l hnotin]
      · rw [List.filterMap_cons_some hcr]
        exact List.mem_cons_self _ _
    · have hnd' := (List.nodup_cons.mp hnd).2
      have hanej : a ≠ j := fun h => (List.nodup_cons.mp hnd).1 (h ▸ hmem)
      obtain ⟨ihc, ihm⟩ := ih hnd' hmem hcf
      cases hca : copyRec cf a with
      | none =>
        rw [List.filterMap_cons_none hca]
        exact ⟨ihc, ihm⟩
      | some r =>
        have hca' := hca
        simp only [copyRec] at hca'
        obtain ⟨m', hm', hr⟩ := Option.map_eq_some'.mp hca'
        have hr1 : r.1 = a := by rw [← hr]
        constructor
        · rw [List.filterMap_cons_some hca, List.countP_cons]
          simp [hr1, hanej, ihc]
        · rw [List.filterMap_cons_some hca]
          exact List.mem_cons_of_mem _ ihm

/-- C6: in a completed run over duplicate-free jobs, a job whose copy step
fails leaves exactly one error record carrying that job's source and
destination paths; its rendered string (naming both paths and the cause)
is in backup's returned error list; and the pool carried on — all jobs are
still processed. -/
theorem copy_failure_single_error (mf : Job → Bool) (cf : Job → Option String)
    (jobs : List Job) (w : Nat) (sched : List Nat) (s : PoolState)
    (j : Job) (m : String)
    (hw : 1 ≤ w) (hrun : backupRun mf cf jobs w sched = some s)
    (hdone : allDone s = true) (hnd : jobs.Nodup)
    (hj : j ∈ jobs) (hcf : cf j = some m) :
    s.errors.countP (fun r => decide (r.1 = j)) = 1
    ∧ (j, m) ∈ s.errors
    ∧ mkCopyError j m ∈ backupErrors s
    ∧ (allTaken s : Multiset Job) = (jobs : Multiset Job) := by
  have hinv := backupRun_inv hrun
  obtain ⟨htk, herr⟩ := final_state_of_allDone hinv hw hdone
  have hperm : List.Perm s.errors (jobs.filterMap (copyRec cf)) :=
    Multiset.coe_eq_coe.mp herr
  obtain ⟨hc1, hm1⟩ := countP_copyRec_nodup cf j m jobs hnd hj hcf
  refine ⟨?_, ?_, ?_, htk⟩
  · have h2 := List.Perm.countP_eq (fun r => decide (r.1 = j)) hperm
    exact h2.trans hc1
  · exact hperm.mem_iff.mpr hm1
  · unfold backupErrors
    exact List.mem_map.mpr ⟨(j, m), hperm.mem_iff.mpr hm1, rfl⟩

/-- C6 witness: one job with a failing copy, one worker. -/
theorem copy_failure_single_error_witness :
    (⟨[], [⟨[], [("a", "b")], true⟩], 1, [(("a", "b"), "e")]⟩
        : PoolState).errors.countP (fun r => decide (r.1 = ("a", "b"))) = 1
    ∧ (("a", "b"), "e") ∈ (⟨[], [⟨[], [("a", "b")], true⟩], 1,
        [(("a", "b"), "e")]⟩ : PoolState).errors
    ∧ mkCopyError ("a", "b") "e" ∈ backupErrors
        ⟨[], [⟨[], [("a", "b")], true⟩], 1, [(("a", "b"), "e")]⟩
    ∧ (allTaken ⟨[], [⟨[], [("a", "b")], true⟩], 1, [(("a", "b"), "e")]⟩
        : Multiset Job) = (([("a", "b")] : List Job) : Multiset Job) :=
  copy_failure_single_error (fun _ => false) (fun _ => some "e") [("a", "b")]
    1 [0, 0] ⟨[], [⟨[], [("a", "b")], true⟩], 1, [(("a", "b"), "e")]⟩
    ("a", "b") "e" (by decide) rfl rfl (by decide) (by decide) rfl

/-- C7: the completed counter counts exactly the jobs taken (one increment
per job, successes and failures alike), never exceeds the total, is
non-decreasing along any extension of the schedule, and equals the total
once the run has completed (all workers joined, at least one worker). -/
theorem completed_count_props
    (mf : Job → Bool) (cf : Job → Option String) (jobs : List Job) (w : Nat)
    (sched ext : List Nat) (s : PoolState)
    (hw : 1 ≤ w)
    (hrun : backupRun mf cf jobs w sched = some s) :
    s.completed = (allTaken s).length
    ∧ s.completed ≤ jobs.length
    ∧ (∀ s' : PoolState, backupRun mf cf jobs w (sched ++ ext) = some s' →
        s.completed ≤ s'.completed)
    ∧ (allDone s = true → s.completed = jobs.length) := by
  have hinv := backupRun_inv hrun
  have hlen : s.remaining.length + (allTaken s).length = jobs.length := by
    have := congrArg Multiset.card hinv.acc
    simpa [Multiset.card_add, Multiset.coe_card] using this
  refine ⟨hinv.comp, ?_, ?_, ?_⟩
  · rw [hinv.comp]
    omega
  · intro s' hrun'
    have hr0 : runPool mf cf (initState jobs w) sched = some s := hrun
    have hr1 : runPool mf cf (initState jobs w) (sched ++ ext) = some s' := hrun'
    rw [runPool_append, hr0] at hr1
    simp only [Option.some_bind] at hr1
    exact runPool_completed_le hr1
  · intro hdone
    have htk := (final_state_of_allDone hinv hw hdone).1
    have hlen2 : (allTaken s).length = jobs.length := by
      have := congrArg Multiset.card htk
      simpa [Multiset.coe_card] using this
    rw [hinv.comp, hlen2]

/-- C7 witness: one job, one worker, drained schedule, empty extension. -/
theorem completed_count_props_witness :
    (⟨[], [⟨[], [("p", "q")], true⟩], 1, []⟩ : PoolState).completed
      = (allTaken ⟨[], [⟨[], [("p", "q")], true⟩], 1, []⟩).length
    ∧ (⟨[], [⟨[], [("p", "q")], true⟩], 1, []⟩ : PoolState).completed
      ≤ ([("p", "q")] : List Job).length
    ∧ (∀ s' : PoolState,
        backupRun (fun _ => false) (fun _ => none) [("p", "q")] 1
          ([0, 0] ++ []) = some s' →
        (⟨[], [⟨[], [("p", "q")], true⟩], 1, []⟩ : PoolState).completed
          ≤ s'.completed)
    ∧ (allDone ⟨[], [⟨[], [("p", "q")], true⟩], 1, []⟩ = true →
        (⟨[], [⟨[], [("p", "q")], true⟩], 1, []⟩ : PoolState).completed
          = ([("p", "q")] : List Job).length) :=
  completed_count_props (fun _ => false) (fun _ => none) [("p", "q")] 1
    [0, 0] [] ⟨[], [⟨[], [("p", "q")], true⟩], 1, []⟩ (by decide) rfl

/-- C9: the failing input, evaluated.  With an empty job list a single
worker finishes immediately: no errors, completed-count 0.  But the bar
loop's `percent` is the saturating cast of `0.0 / 0.0 = NaN`, which is `0`
at every poll, so `percent >= 100` never holds: with the progress renderer
enabled, backup's bar loop never exits and backup does not return. -/
theorem backup_empty_jobs_progress_bar_stuck :
    backupRun (fun _ => false) (fun _ => none) ([] : List Job) 1 [0]
      = some ⟨[], [⟨[], [], true⟩], 0, []⟩
    ∧ (∀ c : Nat, barPercent c 0 = 0)
    ∧ ¬ barLoopExits 0 := by
  refine ⟨rfl, fun c => by simp [barPercent], ?_⟩
  rintro ⟨c, _, hge⟩
  simp [barPercent] at hge

theorem runPool_no_workers (mf : Job → Bool) (cf : Job → Option String) :
    ∀ (sched : List Nat) (s : PoolState), s.workers = [] →
      runPool mf cf s sched = some s := by
  intro sched
  induction sched with
  | nil => intro s _; rfl
  | cons t ts ih =>
    intro s hws
    have hnone : s.workers[t]? = none := by simp [hws]
    rw [runPool, step_no_worker hnone]
    exact ih s hws

/-- C10 counterexample: threads = -1, one job, progress bar enabled.  No
worker is spawned, so the run ends with completed-count 0; the bar loop's
percent is then 0 at every poll (0 * 100 / 1 = 0), never reaching 100, so
backup never returns — while the claim says this call returns an empty
error list. -/
theorem nonpositive_threads_progress_hang_cex :
    backupRun (fun _ => false) (fun _ => none) [("a", "b")]
        (numWorkers (-1)) [0] = some (initState [("a", "b")] 0)
    ∧ ¬ backupReturns true 1 0 := by
  refine ⟨rfl, ?_⟩
  rintro (h | h)
  · exact absurd h (by simp)
  · simp [barPercent] at h

/-- C10 (amended): with a worker count of zero or less, `for _ in
0..threads` spawns no workers, so every scheduled step is a no-op and the
run ends in the initial state: no job is ever taken (all silently
dropped), the error list stays empty and the completed-count stays 0.
With the progress bar disabled backup then returns that empty error list;
with the progress bar enabled the polled percent stays 0 forever (the
completed-count never moves) and the bar loop never exits, so backup does
not return. -/
theorem nonpositive_threads_no_work (threads : Int) (mf : Job → Bool)
    (cf : Job → Option String) (jobs : List Job) (sched : List Nat)
    (h : threads ≤ 0) :
    numWorkers threads = 0
    ∧ backupRun mf cf jobs (numWorkers threads) sched
        = some (initState jobs 0)
    ∧ (initState jobs 0).errors = []
    ∧ (initState jobs 0).completed = 0
    ∧ allTaken (initState jobs 0) = []
    ∧ (initState jobs 0).remaining = jobs
    ∧ backupReturns false jobs.length 0
    ∧ ¬ backupReturns true jobs.length 0 := by
  have h0 : numWorkers threads = 0 := Int.toNat_of_nonpos h
  refine ⟨h0, ?_, rfl, rfl, rfl, rfl, Or.inl rfl, ?_⟩
  · rw [h0]
    exact runPool_no_workers mf cf sched (initState jobs 0) rfl
  · rintro (hp | hp)
    · exact absurd hp (by simp)
    · simp [barPercent] at hp

/-- C10 witness: two scheduled worker ids, thread count -2, a job that
would even panic on directory creation — nothing happens, and with the
progress bar enabled backup would never return. -/
theorem nonpositive_threads_no_work_witness :
    numWorkers (-2) = 0
    ∧ backupRun (fun _ => true) (fun _ => some "m") [("a", "b")]
        (numWorkers (-2)) [0, 1] = some (initState [("a", "b")] 0)
    ∧ (initState [("a", "b")] 0).errors = []
    ∧ (initState [("a", "b")] 0).completed = 0
    ∧ allTaken (initState [("a", "b")] 0) = []
    ∧ (initState [("a", "b")] 0).remaining = [("a", "b")]
    ∧ backupReturns false ([("a", "b")] : List Job).length 0
    ∧ ¬ backupReturns true ([("a", "b")] : List Job).length 0 :=
  nonpositive_threads_no_work (-2) (fun _ => true) (fun _ => some "m")
    [("a", "b")] [0, 1] (by decide)

end Backr
